import Mathlib

/-!
Verification of the LIO task loader (`cmscontrib/loaders/lio.py`).

This file shallowly embeds the core import pipeline of `LioTaskLoader`:
the point-file parser (`parse_point_file`), the archive test matcher and
bucket collection, the cross-validation checks, and the assembly of
`score_type_parameters` and testcase codenames performed by `get_task`.

Modelling conventions:
- A text line and an archive member name are `List Char`.  The helper
  `chars` converts a Lean string literal to a `List Char`.
- Python exceptions are the `PyError` inductive.  `LioLoaderException`
  becomes `PyError.LioError msg` carrying the message string; uncaught
  builtin exceptions become `IndexError`, `ValueError` and `KeyError`.
  The Python message for an unsupported archive member interpolates the
  task name from the configuration; the configuration is not modelled, so
  that message is kept constant here.
- `int(...)` is modelled on tokens only (no surrounding whitespace, which
  `split` already removed).  After `line.replace("-", " ")` a token cannot
  contain a minus sign, so only an optional leading `+` followed by ASCII
  decimal digits is modelled (Python's grouping underscores and non-ASCII
  digits are not modelled, and `\d` in the member-name regex is likewise
  modelled as ASCII `0-9`).
- Python `dict` is an insertion-ordered association list; assigning to an
  existing key updates it in place, a new key is appended at the end.
- The regex search `\.(i|o)(\d+)([a-z]*)$` is modelled by `searchTest`,
  which tries the pattern at each position from the left, exactly like
  `re.search`; Python's `$` also matches just before a newline that ends
  the string, which `tailCapture` reproduces via `dropTrailingNewline`.
- Reading the zip member contents, ASCII decoding and the blob store
  (`file_cacher`) are external collaborators and are abstracted away: a
  produced testcase records the member names it would read instead of the
  content digests.  Statement loading, checker compilation and the other
  configuration-driven fields of `get_task` that do not interact with the
  point file or the archive are likewise out of scope; `public_groups` is
  passed as an argument (its configuration default is `[0, 1]`).
-/

/-- Characters stripped by Python `str.strip()` / split by `str.split()`
(ASCII whitespace; the Unicode cases are not modelled). -/
def isSpaceChar (c : Char) : Bool :=
  c = ' ' || c = '\t' || c = '\n' || c = '\x0d' || c = '\x0b' || c = '\x0c'

/-- ASCII decimal digit, the model of regex `\d` and of the characters
accepted by `int`. -/
def isDigitChar (c : Char) : Bool :=
  decide ('0' ≤ c) && decide (c ≤ '9')

/-- ASCII lowercase letter, the regex class `[a-z]`. -/
def isLowerChar (c : Char) : Bool :=
  decide ('a' ≤ c) && decide (c ≤ 'z')

/-- Numeric value of a decimal digit character. -/
def digitVal (c : Char) : Nat := c.toNat - '0'.toNat

/-- Decimal value of a digit string, as computed by Python `int` on an
all-digit token (also used for the `(\d+)` capture group). -/
def natOfDigits (l : List Char) : Nat :=
  l.foldl (fun acc c => 10 * acc + digitVal c) 0

/-- Python `str.strip()`: drop leading and trailing whitespace. -/
def stripL (l : List Char) : List Char :=
  ((l.dropWhile isSpaceChar).reverse.dropWhile isSpaceChar).reverse

/-- Worker for `splitWs`; `cur` holds the current word reversed. -/
def splitWsAux (cur : List Char) : List Char → List (List Char)
  | [] => if cur = [] then [] else [cur.reverse]
  | c :: rest =>
    if isSpaceChar c then
      if cur = [] then splitWsAux [] rest
      else cur.reverse :: splitWsAux [] rest
    else splitWsAux (c :: cur) rest

/-- Python `str.split()` with no argument: split on runs of whitespace,
dropping empty pieces. -/
def splitWs (l : List Char) : List (List Char) := splitWsAux [] l

/-- Characters of a string literal. -/
def chars (s : String) : List Char := s.data

/-- Python `f"{n:0w}"` for a nonnegative `n`: decimal digits left-padded
with `'0'` to width `w`. -/
def zeroPad (w : Nat) (n : Nat) : List Char :=
  let d := Nat.toDigits 10 n
  List.replicate (w - d.length) '0' ++ d

/-- Exceptions raised by the loader.  `LioError` is `LioLoaderException`
with its message; the others are the uncaught Python builtins. -/
inductive PyError where
  | LioError (msg : String)
  | IndexError
  | ValueError
  | KeyError
deriving DecidableEq

deriving instance DecidableEq for Except

/-- Python `vars[i]` on a list of tokens: `IndexError` when out of range. -/
def getTok : List (List Char) → Nat → Except PyError (List Char)
  | [], _ => .error .IndexError
  | t :: _, 0 => .ok t
  | _ :: rest, i + 1 => getTok rest i

/-- Python `int(token)` on a whitespace-free token that cannot contain a
minus sign: an optional `+` followed by one or more digits, else
`ValueError`. -/
def pyIntTok (t : List Char) : Except PyError Nat :=
  let t2 := match t with
    | '+' :: rest => rest
    | _ => t
  if t2 ≠ [] ∧ t2.all isDigitChar then .ok (natOfDigits t2)
  else .error .ValueError

/-- `line.replace("-", " ").split()` from `parse_point_file`: the pattern
`"-"` is a single character, so `replace` is a character map. -/
def tokenize (line : List Char) : List (List Char) :=
  splitWs (line.map (fun c => if c = '-' then ' ' else c))

/-- One line of `parse_point_file`:
`a = int(vars[0]); b = int(vars[1]); points = int(vars[2])`, with the
exact evaluation order (each index lookup before its conversion). -/
def parseLine (line : List Char) : Except PyError (Nat × Nat × Nat) :=
  let vars := tokenize line
  match getTok vars 0 with
  | .error e => .error e
  | .ok t0 =>
    match pyIntTok t0 with
    | .error e => .error e
    | .ok a =>
      match getTok vars 1 with
      | .error e => .error e
      | .ok t1 =>
        match pyIntTok t1 with
        | .error e => .error e
        | .ok b =>
          match getTok vars 2 with
          | .error e => .error e
          | .ok t2 =>
            match pyIntTok t2 with
            | .error e => .error e
            | .ok pts => .ok (a, b, pts)

/-- The inner loop `for group in range(a, b+1)` of `parse_point_file`,
given the expanded list of groups: raise on a group already present in
the dictionary, else append `group ↦ points`. -/
def assignGroups (ppg : List (Nat × Nat)) (pts : Nat) : List Nat → Except PyError (List (Nat × Nat))
  | [] => .ok ppg
  | g :: gs =>
    if g ∈ ppg.map Prod.fst then .error (.LioError "Duplicated groups in point file")
    else assignGroups (ppg ++ [(g, pts)]) pts gs

/-- The outer loop `for line in content` of `parse_point_file`.  Lines
are already stripped. -/
def processLines (ppg : List (Nat × Nat)) : List (List Char) → Except PyError (List (Nat × Nat))
  | [] => .ok ppg
  | line :: rest =>
    match parseLine line with
    | .error e => .error e
    | .ok (a, b, pts) =>
      match assignGroups ppg pts (List.range' a (b + 1 - a)) with
      | .error e => .error e
      | .ok ppg2 => processLines ppg2 rest

/-- `parse_point_file`: strip every line, process them in order, then
check that groups `0..len-1` are all present and that the point values
sum to `100`.  The membership check is modelled as a single test because
the Python loop raises the same message at the first missing group. -/
def parse_point_file (content : List (List Char)) : Except PyError (List (Nat × Nat)) :=
  match processLines [] (content.map stripL) with
  | .error e => .error e
  | .ok ppg =>
    if (List.range ppg.length).all (fun g => decide (g ∈ ppg.map Prod.fst)) then
      if (ppg.map Prod.snd).sum = 100 then .ok ppg
      else .error (.LioError "Points for all groups doesn't sum up to 100")
    else .error (.LioError "Missing group from point file")

/-- Python `$` allows one newline at the very end of the string; this
removes it when present. -/
def dropTrailingNewline (l : List Char) : List Char :=
  match l.reverse with
  | c :: r => if c = '\n' then r.reverse else l
  | [] => l

/-- Match `(i|o)(\d+)([a-z]*)$` against everything after a literal dot,
to the end of the name (allowing Python's final-newline `$`): returns
`(is_input, int(group digits), sub-index label)`. -/
def tailCapture (l : List Char) : Option (Bool × Nat × List Char) :=
  match l with
  | [] => none
  | d :: rest =>
    if d = 'i' ∨ d = 'o' then
      let digits := rest.takeWhile isDigitChar
      let after := rest.dropWhile isDigitChar
      let body := dropTrailingNewline after
      if digits ≠ [] ∧ body.all isLowerChar then
        some (decide (d = 'i'), natOfDigits digits, body)
      else none
    else none

/-- Try the pattern `\.(i|o)(\d+)([a-z]*)$` at one position. -/
def matchSuffix : List Char → Option (Bool × Nat × List Char)
  | [] => none
  | c :: rest => if c = '.' then tailCapture rest else none

/-- `re.search` of `\.(i|o)(\d+)([a-z]*)$`: try every position from the
left. -/
def searchTest : List Char → Option (Bool × Nat × List Char)
  | [] => none
  | c :: rest =>
    match matchSuffix (c :: rest) with
    | some r => some r
    | none => searchTest rest

/-- The per-member checks of the archive loop: reject a path separator,
then classify the name by the regex search. -/
def classify (name : List Char) : Except PyError (Bool × Nat × List Char) :=
  if name.contains '/' || name.contains '\\' then
    .error (.LioError "Test zip archive contains a directory")
  else
    match searchTest name with
    | some r => .ok r
    | none => .error (.LioError "Unsupported file in test archive")

/-- One bucket of `test_files[group][sub]`: the optional `'input'` and
`'output'` entries, holding the member names that were assigned. -/
structure Bucket where
  input? : Option (List Char)
  output? : Option (List Char)
deriving DecidableEq

/-- `testcase['input' if is_input else 'output'] = test_filename`. -/
def setDir (d : Bool) (n : List Char) (bk : Bucket) : Bucket :=
  if d then Bucket.mk (some n) bk.output? else Bucket.mk bk.input? (some n)

/-- `test_files[group]`: sub-index label to bucket, insertion ordered. -/
abbrev SubMap := List (List Char × Bucket)

/-- `test_files`: group index to sub-map, insertion ordered. -/
abbrev TFiles := List (Nat × SubMap)

/-- Association-list lookup, the model of Python `d[k]` / `k in d`. -/
def lookupA {κ β : Type} [DecidableEq κ] : List (κ × β) → κ → Option β
  | [], _ => none
  | e :: rest, k => if e.1 = k then some e.2 else lookupA rest k

/-- Update `test_files[group][sub]` for one classified member: an existing
sub key is updated in place, a new one is appended. -/
def updateSub (s : List Char) (d : Bool) (n : List Char) : SubMap → SubMap
  | [] => [(s, setDir d n (Bucket.mk none none))]
  | e :: rest =>
    if e.1 = s then (e.1, setDir d n e.2) :: rest
    else e :: updateSub s d n rest

/-- Update `test_files` for one classified member. -/
def updateTF (g : Nat) (s : List Char) (d : Bool) (n : List Char) : TFiles → TFiles
  | [] => [(g, updateSub s d n [])]
  | e :: rest =>
    if e.1 = g then (e.1, updateSub s d n e.2) :: rest
    else e :: updateTF g s d n rest

/-- The collection loop `for test_filename in zip.namelist()`. -/
def collectAux (tf : TFiles) : List (List Char) → Except PyError TFiles
  | [] => .ok tf
  | n :: rest =>
    match classify n with
    | .error e => .error e
    | .ok (d, g, s) => collectAux (updateTF g s d n tf) rest

/-- Collect and organize the test files from the archive name list. -/
def collectTests (names : List (List Char)) : Except PyError TFiles :=
  collectAux [] names

/-- The bucket stored for `(group, sub)`, if any. -/
def findBucket (tf : TFiles) (g : Nat) (s : List Char) : Option Bucket :=
  match lookupA tf g with
  | some subs => lookupA subs s
  | none => none

/-- `tests_per_group[group] += 1` on a Python list: `IndexError` when the
index is out of range. -/
def bump : List Nat → Nat → Except PyError (List Nat)
  | [], _ => .error .IndexError
  | x :: rest, 0 => .ok ((x + 1) :: rest)
  | x :: rest, i + 1 =>
    match bump rest i with
    | .error e => .error e
    | .ok rest2 => .ok (x :: rest2)

/-- `sorted` on group indices. -/
def sortNats (l : List Nat) : List Nat := List.insertionSort (· ≤ ·) l

/-- Lexicographic comparison of strings by code point, Python `<=`. -/
def strLE : List Char → List Char → Bool
  | [], _ => true
  | _ :: _, [] => false
  | c :: cs, d :: ds =>
    if c < d then true
    else if d < c then false
    else strLE cs ds

/-- `sorted` on sub-index labels. -/
def sortStrs (l : List (List Char)) : List (List Char) :=
  List.insertionSort (fun a b => strLE a b = true) l

/-- `max(test_files.keys())`: `ValueError` on an empty dictionary. -/
def maxKeys (tf : TFiles) : Except PyError Nat :=
  match tf.map Prod.fst with
  | [] => .error .ValueError
  | k :: ks => .ok (ks.foldl max k)

/-- `test_files[group]` lookup in the extraction loop. -/
def findGroup (tf : TFiles) (g : Nat) : Except PyError SubMap :=
  match lookupA tf g with
  | some subs => .ok subs
  | none => .error .KeyError

/-- `test_files[group][test_in_group]` lookup in the extraction loop. -/
def findSub (subs : SubMap) (s : List Char) : Except PyError Bucket :=
  match lookupA subs s with
  | some bk => .ok bk
  | none => .error .KeyError

/-- One assembled testcase: codename, the public flag
`group in public_groups`, and the input and output member names whose
contents would be uploaded. -/
abbrev TCEntry := List Char × Bool × List Char × List Char

/-- Decidable equality of testcase entries, registered so that results of
the extraction phase can be compared on concrete inputs. -/
instance : DecidableEq TCEntry := inferInstance

/-- The inner extraction loop over the sorted sub-index labels of one
group: count the test, check that both sides are present, then emit the
testcase under its codename.  The count is incremented before the
completeness check, exactly as in the source. -/
def buildSub (w : Nat) (pg : List Nat) (g : Nat) (subs : SubMap) :
    List (List Char) → List TCEntry × List Nat → Except PyError (List TCEntry × List Nat)
  | [], st => .ok st
  | s :: rest, (tcs, tpg) =>
    match bump tpg g with
    | .error e => .error e
    | .ok tpg2 =>
      match findSub subs s with
      | .error e => .error e
      | .ok bk =>
        match bk.input?, bk.output? with
        | some inN, some outN =>
          buildSub w pg g subs rest
            (tcs ++ [(zeroPad w g ++ s, decide (g ∈ pg), inN, outN)], tpg2)
        | _, _ =>
          .error (.LioError ("Input or output file not found for test " ++
            Nat.repr g ++ String.mk s))

/-- The outer extraction loop over the sorted group indices. -/
def buildGroups (w : Nat) (pg : List Nat) (tf : TFiles) :
    List Nat → List TCEntry × List Nat → Except PyError (List TCEntry × List Nat)
  | [], st => .ok st
  | g :: rest, st =>
    match findGroup tf g with
    | .error e => .error e
    | .ok subs =>
      match buildSub w pg g subs (sortStrs (subs.map Prod.fst)) st with
      | .error e => .error e
      | .ok st2 => buildGroups w pg tf rest st2

/-- The extraction phase: compute
`max_group_digit_length = len(str(max(test_files.keys())))`, then walk
the groups in ascending order, threading the testcase list and
`tests_per_group` (initialised by the caller to `[0] * N`). -/
def buildTestcases (pg : List Nat) (tpg0 : List Nat) (tf : TFiles) :
    Except PyError (List TCEntry × List Nat) :=
  match maxKeys tf with
  | .error e => .error e
  | .ok mx =>
    buildGroups ((Nat.toDigits 10 mx).length) pg tf (sortNats (tf.map Prod.fst)) ([], tpg0)

/-- The final loop over `tests_per_group`, raising at the first group
with no testcases; `i` is the index of the head element. -/
def checkGroupsFrom (i : Nat) : List Nat → Except PyError Unit
  | [] => .ok ()
  | x :: rest =>
    if x = 0 then .error (.LioError ("No testcases for group " ++ Nat.repr i))
    else checkGroupsFrom (i + 1) rest

/-- `for i in range(len(tests_per_group)): if tests_per_group[i] == 0: raise`. -/
def checkGroups (tpg : List Nat) : Except PyError Unit := checkGroupsFrom 0 tpg

/-- Python `points_per_group[i]`: `KeyError` on a missing key. -/
def dictGet (ppg : List (Nat × Nat)) (k : Nat) : Except PyError Nat :=
  match lookupA ppg k with
  | some v => .ok v
  | none => .error .KeyError

/-- The list comprehension
`[[points_per_group[i], f"{i:03}"] for i in range(len(points_per_group))]`
over a given index list. -/
def stpAux (ppg : List (Nat × Nat)) : List Nat → Except PyError (List (Nat × List Char))
  | [] => .ok []
  | i :: rest =>
    match dictGet ppg i with
    | .error e => .error e
    | .ok p =>
      match stpAux ppg rest with
      | .error e => .error e
      | .ok l => .ok ((p, zeroPad 3 i) :: l)

/-- `score_type_parameters`: one `[points, f"{i:03}"]` pair per group
index in ascending order. -/
def score_type_parameters (ppg : List (Nat × Nat)) : Except PyError (List (Nat × List Char)) :=
  stpAux ppg (List.range ppg.length)

/-- The parts of the assembled dataset that the point file and the
archive name list determine. -/
structure DatasetResult where
  score_type_parameters : List (Nat × List Char)
  testcases : List TCEntry
deriving DecidableEq

/-- The core pipeline of `LioTaskLoader.get_task`, in source order: parse
the point file, build `score_type_parameters`, collect the archive
members, extract the testcases (with `tests_per_group` initialised to
`[0] * len(points_per_group)`), and run the final per-group check. -/
def get_task (pointLines : List (List Char)) (names : List (List Char))
    (public_groups : List Nat) : Except PyError DatasetResult :=
  match parse_point_file pointLines with
  | .error e => .error e
  | .ok ppg =>
    match score_type_parameters ppg with
    | .error e => .error e
    | .ok stp =>
      match collectTests names with
      | .error e => .error e
      | .ok tf =>
        match buildTestcases public_groups (List.replicate ppg.length 0) tf with
        | .error e => .error e
        | .ok (tcs, tpg) =>
          match checkGroups tpg with
          | .error e => .error e
          | .ok _ => .ok (DatasetResult.mk stp tcs)

/-- The last dot of a name: `some (base, tail)` with
`name = base ++ '.' :: tail` and no dot in `tail`, or `none` when the
name has no dot. -/
def splitLastDot : List Char → Option (List Char × List Char)
  | [] => none
  | c :: rest =>
    match splitLastDot rest with
    | some (b, t) => some (c :: b, t)
    | none => if c = '.' then some ([], rest) else none

/-- Modelled from the spec: a full match of `^.+\.(i|o)(\d+)([a-z]*)$`
with Python semantics (`.` does not match a newline, `$` also matches
just before a final newline).  The part of the pattern after the chosen
dot cannot contain a dot, so the pattern can only match at the last dot
of the name; `.+` additionally requires a nonempty, newline-free base
before that dot. -/
def specFullMatch (name : List Char) : Option (Bool × Nat × List Char) :=
  match splitLastDot name with
  | some (base, tail) =>
    if base = [] ∨ base.contains '\n' then none else tailCapture tail
  | none => none

/-- Modelled from the spec, amended: a match of the unanchored search
pattern `\.(i|o)(\d+)([a-z]*)$`, i.e. the tail after the last dot of the
name has the form `(i|o)(\d+)([a-z]*)` (with Python's final-newline `$`);
the base before that dot is unconstrained and may be empty. -/
def lastDotMatch (name : List Char) : Option (Bool × Nat × List Char) :=
  match splitLastDot name with
  | some (_, tail) => tailCapture tail
  | none => none

/-- Package an optional classification the way the archive loop does:
a failed match is the unsupported-file error. -/
def toResult (o : Option (Bool × Nat × List Char)) : Except PyError (Bool × Nat × List Char) :=
  match o with
  | some r => .ok r
  | none => .error (.LioError "Unsupported file in test archive")

/-- The groups assigned by one (already stripped) point-file line, when
the line parses: `range(a, b+1)`. -/
def lineGroups (line : List Char) : List Nat :=
  match parseLine line with
  | .ok (a, b, _) => List.range' a (b + 1 - a)
  | .error _ => []

/-- All group assignments made by a list of (already stripped) lines, in
file order with multiplicity. -/
def expandGroups : List (List Char) → List Nat
  | [] => []
  | l :: rest => lineGroups l ++ expandGroups rest

/-! ### Association-list lemmas -/

theorem lookupA_eq_some_of_mem {κ β : Type} [DecidableEq κ] {l : List (κ × β)} {k : κ} {v : β}
    (hn : (l.map Prod.fst).Nodup) (hm : (k, v) ∈ l) : lookupA l k = some v := by
  induction l with
  | nil => simp at hm
  | cons e rest ih =>
    rw [List.map_cons, List.nodup_cons] at hn
    rcases List.mem_cons.mp hm with he | hm2
    · subst he
      simp [lookupA]
    · have hk : e.1 ≠ k := by
        intro hk
        exact hn.1 (hk ▸ List.mem_map.mpr ⟨(k, v), hm2, rfl⟩)
      simp only [lookupA, if_neg hk]
      exact ih hn.2 hm2

theorem mem_of_lookupA_eq_some {κ β : Type} [DecidableEq κ] {l : List (κ × β)} {k : κ} {v : β}
    (h : lookupA l k = some v) : (k, v) ∈ l := by
  induction l with
  | nil => simp [lookupA] at h
  | cons e rest ih =>
    simp only [lookupA] at h
    by_cases he : e.1 = k
    · rw [if_pos he] at h
      injection h with h
      exact List.mem_cons.mpr (Or.inl (by rw [← he, ← h]))
    · rw [if_neg he] at h
      exact List.mem_cons_of_mem e (ih h)

theorem lookupA_isSome_of_mem_keys {κ β : Type} [DecidableEq κ] {l : List (κ × β)} {k : κ}
    (h : k ∈ l.map Prod.fst) : ∃ v, lookupA l k = some v := by
  induction l with
  | nil => simp at h
  | cons e rest ih =>
    by_cases he : e.1 = k
    · exact ⟨e.2, by simp [lookupA, he]⟩
    · rw [List.map_cons, List.mem_cons] at h
      rcases h with h1 | h2
      · exact absurd h1.symm he
      · obtain ⟨v, hv⟩ := ih h2
        exact ⟨v, by simp [lookupA, he, hv]⟩

/-! ### Point-file parser lemmas -/

theorem assignGroups_ok_of_disjoint {pts : Nat} {gs : List Nat} (hnd : gs.Nodup) :
    ∀ ppg, (∀ g ∈ gs, g ∉ ppg.map Prod.fst) →
    assignGroups ppg pts gs = .ok (ppg ++ gs.map (fun g => (g, pts))) := by
  induction gs with
  | nil => intro ppg _; simp [assignGroups]
  | cons g rest ih =>
    intro ppg hd
    rw [List.nodup_cons] at hnd
    have hd2 : ∀ g2 ∈ rest, g2 ∉ (ppg ++ [(g, pts)]).map Prod.fst := by
      intro g2 hg2 hmem
      rw [List.map_append] at hmem
      rcases List.mem_append.mp hmem with h1 | h2
      · exact hd g2 (List.mem_cons_of_mem g hg2) h1
      · simp only [List.map_cons, List.map_nil, List.mem_singleton] at h2
        exact hnd.1 (h2 ▸ hg2)
    simp only [assignGroups, if_neg (hd g (List.mem_cons_self g rest))]
    rw [ih hnd.2 (ppg ++ [(g, pts)]) hd2]
    simp

theorem assignGroups_error_of_hit {pts : Nat} {gs : List Nat} :
    ∀ ppg, (∃ g ∈ gs, g ∈ ppg.map Prod.fst) →
    assignGroups ppg pts gs = .error (.LioError "Duplicated groups in point file") := by
  induction gs with
  | nil => intro ppg h; simp at h
  | cons g rest ih =>
    intro ppg h
    by_cases hg : g ∈ ppg.map Prod.fst
    · simp only [assignGroups, if_pos hg]
    · simp only [assignGroups, if_neg hg]
      apply ih
      obtain ⟨g2, hg2, hmem⟩ := h
      rcases List.mem_cons.mp hg2 with rfl | h2
      · exact absurd hmem hg
      · exact ⟨g2, h2, by rw [List.map_append]; exact List.mem_append_left _ hmem⟩

theorem assignGroups_nodup {pts : Nat} {gs : List Nat} :
    ∀ ppg ppg2, assignGroups ppg pts gs = .ok ppg2 →
    (ppg.map Prod.fst).Nodup → (ppg2.map Prod.fst).Nodup := by
  induction gs with
  | nil =>
    intro ppg ppg2 h hn
    simp only [assignGroups] at h
    injection h with h
    subst h
    exact hn
  | cons g rest ih =>
    intro ppg ppg2 h hn
    simp only [assignGroups] at h
    by_cases hg : g ∈ ppg.map Prod.fst
    · rw [if_pos hg] at h
      simp at h
    · rw [if_neg hg] at h
      apply ih _ _ h
      rw [List.map_append]
      refine List.Nodup.append hn (by simp) ?_
      intro x hx hx2
      simp only [List.map_cons, List.map_nil, List.mem_singleton] at hx2
      exact hg (hx2 ▸ hx)

theorem processLines_append :
    ∀ xs ys ppg, processLines ppg (xs ++ ys) =
      match processLines ppg xs with
      | .ok p => processLines p ys
      | .error e => .error e := by
  intro xs
  induction xs with
  | nil => intro ys ppg; simp [processLines]
  | cons line rest ih =>
    intro ys ppg
    cases hpl : parseLine line with
    | error e => simp [processLines, hpl]
    | ok t =>
      obtain ⟨a, b, pts⟩ := t
      cases hag : assignGroups ppg pts (List.range' a (b + 1 - a)) with
      | error e => simp [processLines, hpl, hag]
      | ok ppg2 =>
        simp only [List.cons_append, processLines, hpl, hag]
        exact ih ys ppg2

theorem processLines_nodup :
    ∀ lines ppg ppg2, processLines ppg lines = .ok ppg2 →
    (ppg.map Prod.fst).Nodup → (ppg2.map Prod.fst).Nodup := by
  intro lines
  induction lines with
  | nil =>
    intro ppg ppg2 h hn
    simp only [processLines] at h
    injection h with h
    subst h
    exact hn
  | cons line rest ih =>
    intro ppg ppg2 h hn
    cases hpl : parseLine line with
    | error e => simp [processLines, hpl] at h
    | ok t =>
      obtain ⟨a, b, pts⟩ := t
      cases hag : assignGroups ppg pts (List.range' a (b + 1 - a)) with
      | error e => simp [processLines, hpl, hag] at h
      | ok p2 =>
        simp only [processLines, hpl, hag] at h
        exact ih p2 ppg2 h (assignGroups_nodup ppg p2 hag hn)

/-- C1: whenever `parse_point_file` succeeds, the returned mapping's key
list is a permutation of `{0, …, N-1}` (N the number of entries, so the
key set is exactly that range with no gaps) and its point values sum to
exactly 100. -/
theorem lio_C1 (content : List (List Char)) (ppg : List (Nat × Nat))
    (h : parse_point_file content = .ok ppg) :
    List.Perm (ppg.map Prod.fst) (List.range ppg.length) ∧ (ppg.map Prod.snd).sum = 100 := by
  cases hp : processLines [] (content.map stripL) with
  | error e => simp [parse_point_file, hp] at h
  | ok p =>
    simp only [parse_point_file, hp] at h
    split_ifs at h with h1 h2
    · injection h with h
      subst h
      refine ⟨?_, h2⟩
      have hall : ∀ g ∈ List.range p.length, g ∈ p.map Prod.fst := by
        intro g hg
        exact of_decide_eq_true (List.all_eq_true.mp h1 g hg)
      have hnd : (p.map Prod.fst).Nodup := processLines_nodup _ _ _ hp (by simp)
      obtain ⟨l, hperm, hsl⟩ :=
        List.subperm_of_subset (List.nodup_range p.length) (fun g hg => hall g hg)
      have hlen : l.length = (p.map Prod.fst).length := by
        rw [hperm.length_eq, List.length_range, List.length_map]
      rw [← hsl.eq_of_length hlen]
      exact hperm

/-- C1 witness: the point file `0-1 30` / `2-2 40` parses to
`{0 ↦ 30, 1 ↦ 30, 2 ↦ 40}`, whose keys are `{0, 1, 2}` and whose values
sum to 100. -/
theorem lio_C1_witness :
    List.Perm (([(0, 30), (1, 30), (2, 40)] : List (Nat × Nat)).map Prod.fst)
      (List.range ([(0, 30), (1, 30), (2, 40)] : List (Nat × Nat)).length) ∧
    (([(0, 30), (1, 30), (2, 40)] : List (Nat × Nat)).map Prod.snd).sum = 100 :=
  lio_C1 [chars "0-1 30", chars "2-2 40"] [(0, 30), (1, 30), (2, 40)] (by decide)

theorem processLines_dup :
    ∀ lines ppg, (∀ l ∈ lines, ∃ t, parseLine l = .ok t) →
    (ppg.map Prod.fst).Nodup →
    ¬ (ppg.map Prod.fst ++ expandGroups lines).Nodup →
    processLines ppg lines = .error (.LioError "Duplicated groups in point file") := by
  intro lines
  induction lines with
  | nil =>
    intro ppg _ hn hd
    exact absurd (by simpa [expandGroups] using hn) hd
  | cons line rest ih =>
    intro ppg hwf hn hd
    obtain ⟨t, hpl⟩ := hwf line (List.mem_cons_self line rest)
    obtain ⟨a, b, pts⟩ := t
    simp only [processLines, hpl]
    by_cases hhit : ∃ g ∈ List.range' a (b + 1 - a), g ∈ ppg.map Prod.fst
    · rw [assignGroups_error_of_hit ppg hhit]
    · push_neg at hhit
      rw [assignGroups_ok_of_disjoint (List.nodup_range' a (b + 1 - a)) ppg hhit]
      have hkeys : (ppg ++ (List.range' a (b + 1 - a)).map (fun g => (g, pts))).map Prod.fst =
          ppg.map Prod.fst ++ List.range' a (b + 1 - a) := by
        rw [List.map_append, List.map_map]
        simp [Function.comp_def]
      apply ih
      · intro l hl
        exact hwf l (List.mem_cons_of_mem _ hl)
      · rw [hkeys]
        exact List.Nodup.append hn (List.nodup_range' a (b + 1 - a))
          (fun x hx hg => hhit x hg hx)
      · rw [hkeys, List.append_assoc]
        simpa only [expandGroups, lineGroups, hpl, List.append_assoc] using hd

/-- C7: if every line of the point file is well formed and some group
index is assigned by more than one line (the expanded group assignments
contain a duplicate), then `parse_point_file` fails with the
duplicated-groups error.  The hypotheses are invariant under reordering
the lines, so this holds regardless of the order of the duplicating
lines. -/
theorem lio_C7 (content : List (List Char))
    (hwf : ∀ line ∈ content, ∃ t, parseLine (stripL line) = .ok t)
    (hdup : ¬ (expandGroups (content.map stripL)).Nodup) :
    parse_point_file content = .error (.LioError "Duplicated groups in point file") := by
  have h := processLines_dup (content.map stripL) []
    (by
      intro l hl
      obtain ⟨line, hline, rfl⟩ := List.mem_map.mp hl
      exact hwf line hline)
    (by simp)
    (by simpa using hdup)
  simp [parse_point_file, h]

/-- C7 witness: the point file `0-1 60` / `1-1 40` assigns group 1 twice
and is rejected with the duplicated-groups error. -/
theorem lio_C7_witness :
    parse_point_file [chars "0-1 60", chars "1-1 40"] =
      .error (.LioError "Duplicated groups in point file") :=
  lio_C7 [chars "0-1 60", chars "1-1 40"]
    (by
      intro line hl
      rcases List.mem_cons.mp hl with rfl | hl2
      · exact ⟨(0, 1, 60), by decide⟩
      · rcases List.mem_cons.mp hl2 with rfl | hl3
        · exact ⟨(1, 1, 40), by decide⟩
        · simp at hl3)
    (by decide)

/-- C3 counterexample: the point file consisting of `0-4 20 x` alone
parses successfully, but adding the single-integer-range line `5 10`
makes `parse_point_file` fail with an uncaught `IndexError` instead of
assigning 10 points to group 5 — the two tokens are consumed as the two
range endpoints and the points token is missing. -/
theorem lio_C3_cex :
    parse_point_file [chars "0-4 20 x", chars "5 10"] = .error .IndexError ∧
    parse_point_file [chars "0-4 20 x"] =
      .ok [(0, 20), (1, 20), (2, 20), (3, 20), (4, 20)] := by
  constructor
  · decide
  · decide

/-- C3 amended: a point-file line that normalizes to exactly two integer
tokens (a single-integer range followed by a point value, e.g. `5 10`)
is not accepted: the two tokens are read as the range endpoints by the
shared code path and reading the missing third (points) token fails with
an uncaught `IndexError`, whatever well-formed lines precede or follow
it. -/
theorem lio_C3_amended (pre : List (List Char)) (line : List Char) (post : List (List Char))
    (ppg : List (Nat × Nat)) (ta tb : List Char) (a b : Nat)
    (hpre : processLines [] (pre.map stripL) = .ok ppg)
    (htok : tokenize (stripL line) = [ta, tb])
    (hta : pyIntTok ta = .ok a) (htb : pyIntTok tb = .ok b) :
    parse_point_file (pre ++ line :: post) = .error .IndexError := by
  have hpl : parseLine (stripL line) = .error .IndexError := by
    simp [parseLine, htok, getTok, hta, htb]
  have happ := processLines_append (pre.map stripL) (stripL line :: post.map stripL) []
  rw [hpre] at happ
  simp only [parse_point_file, List.map_append, List.map_cons, happ, processLines, hpl]

/-- C3 witness for the amended statement, at the point file
`0-4 20 x` / `5 10`. -/
theorem lio_C3_witness :
    parse_point_file [chars "0-4 20 x", chars "5 10"] = .error .IndexError :=
  lio_C3_amended [chars "0-4 20 x"] (chars "5 10") []
    [(0, 20), (1, 20), (2, 20), (3, 20), (4, 20)] (chars "5") (chars "10") 5 10
    (by decide) (by decide) (by decide) (by decide)

/-- C10: a blank or whitespace-only line makes `parse_point_file` fail
with an uncaught `IndexError` (indexing the empty token list of that
line), whatever well-formed lines precede or follow it: blank lines are
not skipped. -/
theorem lio_C10 (pre : List (List Char)) (line : List Char) (post : List (List Char))
    (ppg : List (Nat × Nat))
    (hpre : processLines [] (pre.map stripL) = .ok ppg)
    (hblank : stripL line = []) :
    parse_point_file (pre ++ line :: post) = .error .IndexError := by
  have hpl : parseLine (stripL line) = .error .IndexError := by
    rw [hblank]
    decide
  have happ := processLines_append (pre.map stripL) (stripL line :: post.map stripL) []
  rw [hpre] at happ
  simp only [parse_point_file, List.map_append, List.map_cons, happ, processLines, hpl]

/-- C10 witness: the point file `0-0 100` followed by a whitespace-only
line fails with `IndexError`. -/
theorem lio_C10_witness :
    parse_point_file [chars "0-0 100", chars "   "] = .error .IndexError :=
  lio_C10 [chars "0-0 100"] (chars "   ") [] [(0, 100)] (by decide) (by decide)

/-! ### Archive member-name matcher: `re.search` equals last-dot match -/

theorem splitLastDot_spec :
    ∀ (l b t : List Char), splitLastDot l = some (b, t) → l = b ++ '.' :: t := by
  intro l
  induction l with
  | nil => intro b t h; simp [splitLastDot] at h
  | cons c rest ih =>
    intro b t h
    cases hr : splitLastDot rest with
    | some bt =>
      obtain ⟨b2, t2⟩ := bt
      simp only [splitLastDot, hr, Option.some.injEq, Prod.mk.injEq] at h
      obtain ⟨h1, h2⟩ := h
      subst h1
      subst h2
      rw [ih b2 t2 hr]
      simp
    | none =>
      simp only [splitLastDot, hr] at h
      by_cases hc : c = '.'
      · rw [if_pos hc] at h
        simp only [Option.some.injEq, Prod.mk.injEq] at h
        obtain ⟨h1, h2⟩ := h
        subst h1
        subst h2
        simp [hc]
      · rw [if_neg hc] at h
        simp at h

theorem dropTrailingNewline_cases (l : List Char) :
    l = dropTrailingNewline l ∨ l = dropTrailingNewline l ++ ['\n'] := by
  cases hr : l.reverse with
  | nil => left; simp [dropTrailingNewline, hr]
  | cons c r =>
    by_cases hc : c = '\n'
    · right
      simp only [dropTrailingNewline, hr, if_pos hc]
      have hl := congrArg List.reverse hr
      rw [List.reverse_reverse] at hl
      rw [hl, hc]
      simp
    · left
      simp [dropTrailingNewline, hr, hc]

theorem tailCapture_no_dot {l : List Char} {r : Bool × Nat × List Char}
    (h : tailCapture l = some r) : '.' ∉ l := by
  cases l with
  | nil => simp [tailCapture] at h
  | cons d rest =>
    simp only [tailCapture] at h
    split_ifs at h with hio hdig
    · intro hmem
      rcases List.mem_cons.mp hmem with hd | hrest
      · rcases hio with h1 | h1 <;> rw [h1] at hd <;> exact absurd hd (by decide)
      · rw [← List.takeWhile_append_dropWhile isDigitChar rest] at hrest
        rcases List.mem_append.mp hrest with h2 | h2
        · exact absurd (List.mem_takeWhile_imp h2) (by decide)
        · rcases dropTrailingNewline_cases (rest.dropWhile isDigitChar) with hcase | hcase
          · rw [hcase] at h2
            exact absurd (List.all_eq_true.mp hdig.2 _ h2) (by decide)
          · rw [hcase] at h2
            rcases List.mem_append.mp h2 with h3 | h3
            · exact absurd (List.all_eq_true.mp hdig.2 _ h3) (by decide)
            · rw [List.mem_singleton] at h3
              exact absurd h3 (by decide)

theorem searchTest_eq_lastDotMatch : ∀ l : List Char, searchTest l = lastDotMatch l := by
  intro l
  induction l with
  | nil => rfl
  | cons c rest ih =>
    cases hr : splitLastDot rest with
    | some bt =>
      obtain ⟨b, t⟩ := bt
      have hdot : '.' ∈ rest := by
        rw [splitLastDot_spec rest b t hr]
        simp
      have htc : tailCapture rest = none := by
        cases htc : tailCapture rest with
        | none => rfl
        | some r => exact absurd hdot (tailCapture_no_dot htc)
      by_cases hc : c = '.'
      · simp only [searchTest, matchSuffix, if_pos hc, htc]
        rw [ih]
        simp [lastDotMatch, splitLastDot, hr]
      · simp only [searchTest, matchSuffix, if_neg hc]
        rw [ih]
        simp [lastDotMatch, splitLastDot, hr]
    | none =>
      by_cases hc : c = '.'
      · cases htc : tailCapture rest with
        | some r =>
          simp [searchTest, matchSuffix, hc, htc, lastDotMatch, splitLastDot, hr]
        | none =>
          simp only [searchTest, matchSuffix, if_pos hc, htc]
          rw [ih]
          simp [lastDotMatch, splitLastDot, hr, hc, htc]
      · simp only [searchTest, matchSuffix, if_neg hc]
        rw [ih]
        simp [lastDotMatch, splitLastDot, hr, hc]

/-- C4 counterexample: the member name `.i1` (no path separator) does not
match the spec's pattern `^.+\.(i|o)(\d+)([a-z]*)$` (its base name is
empty), yet the code does not raise the unsupported-file error: the
unanchored `re.search` accepts it and classifies it as input of group 1
with empty sub-index. -/
theorem lio_C4_cex :
    classify (chars ".i1") = .ok (true, 1, []) ∧ specFullMatch (chars ".i1") = none := by
  constructor
  · decide
  · decide

/-- C4 amended: for every member name without a path separator, the
matcher raises the unsupported-file error if and only if no suffix of
the name matches `\.(i|o)(\d+)([a-z]*)$` — equivalently, iff the tail
after the last dot is not of the form `(i|o)(\d+)([a-z]*)` — and every
matching name is classified into the (direction, group, sub-index) given
by those capture groups; the base name before the dot is unconstrained
and may be empty. -/
theorem lio_C4_amended (name : List Char)
    (h1 : name.contains '/' = false) (h2 : name.contains '\\' = false) :
    classify name = toResult (lastDotMatch name) := by
  simp only [classify, h1, h2, Bool.or_self, if_false]
  rw [searchTest_eq_lastDotMatch]
  cases lastDotMatch name with
  | some r => simp [toResult]
  | none => simp [toResult]

/-- C4 witness at the member name `a.i1`. -/
theorem lio_C4_witness :
    classify (chars "a.i1") = toResult (lastDotMatch (chars "a.i1")) :=
  lio_C4_amended (chars "a.i1") (by decide) (by decide)

/-- C2 counterexample: with the claim's point file `0-1 30` / `2-2 70`
the import does not succeed — `0-1 30` assigns 30 points to each of
groups 0 and 1, so the per-group values sum to 130 and parsing fails
with the point-sum error.  With a point file that does sum to 100
(`0-1 15` / `2-2 70`) the import succeeds, but the group labels in
`score_type_parameters` are zero-padded to three digits, not the bare
`"0"`, `"1"`, `"2"` of the claim. -/
theorem lio_C2_cex :
    get_task [chars "0-1 30", chars "2-2 70"]
      [chars "a.i0", chars "a.o0", chars "a.i1", chars "a.o1", chars "a.i2", chars "a.o2"]
      [0, 1] = .error (.LioError "Points for all groups doesn't sum up to 100") ∧
    get_task [chars "0-1 15", chars "2-2 70"]
      [chars "a.i0", chars "a.o0", chars "a.i1", chars "a.o1", chars "a.i2", chars "a.o2"]
      [0, 1] = .ok (DatasetResult.mk
        [(15, chars "000"), (15, chars "001"), (70, chars "002")]
        [(chars "0", true, chars "a.i0", chars "a.o0"),
         (chars "1", true, chars "a.i1", chars "a.o1"),
         (chars "2", false, chars "a.i2", chars "a.o2")]) ∧
    [(15, chars "000"), (15, chars "001"), (70, chars "002")] ≠
      [(15, chars "0"), (15, chars "1"), (70, chars "2")] := by
  refine ⟨by decide, by decide, by decide⟩

/-- C2 amended: given the point file `0-1 15` / `2-2 70` (whose per-group
values sum to 100) and a test archive containing complete input/output
tests exactly for groups 0, 1 and 2, the import succeeds and the
assembled `score_type_parameters` sequence is
`[[15, "000"], [15, "001"], [70, "002"]]` — one
`[points, 3-digit zero-padded group label]` pair per group in ascending
group order. -/
theorem lio_C2_amended :
    get_task [chars "0-1 15", chars "2-2 70"]
      [chars "a.i0", chars "a.o0", chars "a.i1", chars "a.o1", chars "a.i2", chars "a.o2"]
      [0, 1] = .ok (DatasetResult.mk
        [(15, chars "000"), (15, chars "001"), (70, chars "002")]
        [(chars "0", true, chars "a.i0", chars "a.o0"),
         (chars "1", true, chars "a.i1", chars "a.o1"),
         (chars "2", false, chars "a.i2", chars "a.o2")]) := by
  decide

/-! ### Cross-validation: the per-group testcase-count check -/

theorem checkGroupsFrom_all_pos :
    ∀ (tpg : List Nat) (k : Nat), (∀ x ∈ tpg, x ≠ 0) → checkGroupsFrom k tpg = .ok () := by
  intro tpg
  induction tpg with
  | nil => intro k _; rfl
  | cons x rest ih =>
    intro k h
    simp only [checkGroupsFrom, if_neg (h x (List.mem_cons_self x rest))]
    exact ih (k + 1) (fun y hy => h y (List.mem_cons_of_mem x hy))

theorem checkGroupsFrom_first_zero :
    ∀ (tpg : List Nat) (i k : Nat), i < tpg.length → tpg.getD i 0 = 0 →
    (∀ j, j < i → tpg.getD j 0 ≠ 0) →
    checkGroupsFrom k tpg =
      .error (.LioError ("No testcases for group " ++ Nat.repr (k + i))) := by
  intro tpg
  induction tpg with
  | nil => intro i k h; simp at h
  | cons x rest ih =>
    intro i k hlt hz hj
    cases i with
    | zero =>
      rw [List.getD_cons_zero] at hz
      simp only [checkGroupsFrom, if_pos hz, Nat.add_zero]
    | succ i2 =>
      have hx : x ≠ 0 := by
        have := hj 0 (Nat.succ_pos i2)
        simpa using this
      simp only [checkGroupsFrom, if_neg hx]
      have hk : k + (i2 + 1) = (k + 1) + i2 := by omega
      rw [hk]
      apply ih i2 (k + 1)
      · simpa using hlt
      · simpa using hz
      · intro j hjlt
        have := hj (j + 1) (Nat.succ_lt_succ hjlt)
        simpa using this

/-- C6 counterexample: the claim's example point file `0-1 30` / `2-2 70`
assigns 30 points to each of groups 0 and 1, so the per-group values sum
to 130 and the import fails with the point-sum error before any test
matching — not with EmptyGroupError naming group 2 as the claim says. -/
theorem lio_C6_cex :
    get_task [chars "0-1 30", chars "2-2 70"]
      [chars "a.i0", chars "a.o0", chars "a.i1", chars "a.o1"] [0, 1] =
      .error (.LioError "Points for all groups doesn't sum up to 100") ∧
    (PyError.LioError "Points for all groups doesn't sum up to 100" ≠
      PyError.LioError "No testcases for group 2") := by
  refine ⟨by decide, by decide⟩

/-- C6 amended: the per-group count check passes when every group has at
least one test; it fails with the empty-group error naming the first
group whose count is zero; and on the example with a point file that
parses (`0-1 15` / `2-2 70`) and an archive lacking group-2 tests,
the import fails with the empty-group error for group 2. -/
theorem lio_C6_amended :
    (∀ tpg : List Nat, (∀ x ∈ tpg, x ≠ 0) → checkGroups tpg = .ok ()) ∧
    (∀ (tpg : List Nat) (i : Nat), i < tpg.length → tpg.getD i 0 = 0 →
      (∀ j, j < i → tpg.getD j 0 ≠ 0) →
      checkGroups tpg = .error (.LioError ("No testcases for group " ++ Nat.repr i))) ∧
    get_task [chars "0-1 15", chars "2-2 70"]
      [chars "a.i0", chars "a.o0", chars "a.i1", chars "a.o1"] [0, 1] =
      .error (.LioError "No testcases for group 2") := by
  refine ⟨?_, ?_, by decide⟩
  · intro tpg h
    exact checkGroupsFrom_all_pos tpg 0 h
  · intro tpg i hlt hz hj
    have h := checkGroupsFrom_first_zero tpg i 0 hlt hz hj
    simpa using h

/-- C6 witness: a count list with no zero entry passes the check. -/
theorem lio_C6_witness : checkGroups [1, 2, 1] = .ok () :=
  lio_C6_amended.1 [1, 2, 1] (by decide)

/-! ### Archive collection: bucket updates and overwrites -/

theorem findBucket_cons (e : Nat × SubMap) (rest : TFiles) (g : Nat) (s : List Char) :
    findBucket (e :: rest) g s = if e.1 = g then lookupA e.2 s else findBucket rest g s := by
  by_cases he : e.1 = g <;> simp [findBucket, lookupA, he]

theorem lookupA_updateSub_same (s : List Char) (d : Bool) (n : List Char) :
    ∀ subs : SubMap, lookupA (updateSub s d n subs) s =
      some (setDir d n ((lookupA subs s).getD (Bucket.mk none none))) := by
  intro subs
  induction subs with
  | nil => simp [updateSub, lookupA]
  | cons e rest ih =>
    by_cases he : e.1 = s
    · simp [updateSub, lookupA, he]
    · simp [updateSub, lookupA, he, ih]

theorem lookupA_updateSub_other (s s2 : List Char) (d : Bool) (n : List Char) (hs : s2 ≠ s) :
    ∀ subs : SubMap, lookupA (updateSub s d n subs) s2 = lookupA subs s2 := by
  intro subs
  induction subs with
  | nil => simp [updateSub, lookupA, Ne.symm hs]
  | cons e rest ih =>
    by_cases he : e.1 = s
    · have hne : e.1 ≠ s2 := by rw [he]; exact Ne.symm hs
      simp [updateSub, lookupA, he, hne, Ne.symm hs]
    · by_cases he2 : e.1 = s2
      · simp [updateSub, lookupA, he, he2, hs]
      · simp [updateSub, lookupA, he, he2, ih]

theorem findBucket_updateTF_same (g : Nat) (s : List Char) (d : Bool) (n : List Char) :
    ∀ tf : TFiles, findBucket (updateTF g s d n tf) g s =
      some (setDir d n ((findBucket tf g s).getD (Bucket.mk none none))) := by
  intro tf
  induction tf with
  | nil =>
    rw [updateTF, findBucket_cons]
    simp [lookupA_updateSub_same s d n, findBucket, lookupA]
  | cons e rest ih =>
    by_cases he : e.1 = g
    · simp only [updateTF, if_pos he]
      rw [findBucket_cons, findBucket_cons]
      simp [he, lookupA_updateSub_same s d n e.2]
    · simp only [updateTF, if_neg he]
      rw [findBucket_cons, findBucket_cons]
      simp [he, ih]

theorem findBucket_updateTF_other (g g2 : Nat) (s s2 : List Char) (d : Bool) (n : List Char)
    (h : g2 ≠ g ∨ s2 ≠ s) :
    ∀ tf : TFiles, findBucket (updateTF g s d n tf) g2 s2 = findBucket tf g2 s2 := by
  intro tf
  induction tf with
  | nil =>
    rw [updateTF, findBucket_cons]
    rcases h with hg | hs
    · rw [if_neg (fun hh => hg hh.symm)]
    · by_cases hg : g = g2
      · rw [if_pos hg, lookupA_updateSub_other s s2 d n hs]
        simp [lookupA, findBucket]
      · rw [if_neg hg]
  | cons e rest ih =>
    by_cases he : e.1 = g
    · simp only [updateTF, if_pos he]
      rw [findBucket_cons, findBucket_cons]
      by_cases he2 : e.1 = g2
      · rcases h with hg | hs
        · exact absurd (he2.symm.trans he) hg
        · rw [if_pos he2, if_pos he2, lookupA_updateSub_other s s2 d n hs]
      · rw [if_neg he2, if_neg he2]
    · simp only [updateTF, if_neg he]
      rw [findBucket_cons, findBucket_cons]
      by_cases he2 : e.1 = g2
      · rw [if_pos he2, if_pos he2]
      · rw [if_neg he2, if_neg he2]
        exact ih

theorem collectAux_ok_of_classified :
    ∀ (names : List (List Char)) (tf : TFiles),
    (∀ n ∈ names, ∃ r, classify n = .ok r) → ∃ tf2, collectAux tf names = .ok tf2 := by
  intro names
  induction names with
  | nil => intro tf _; exact ⟨tf, rfl⟩
  | cons n rest ih =>
    intro tf h
    obtain ⟨r, hr⟩ := h n (List.mem_cons_self n rest)
    obtain ⟨d, g, s⟩ := r
    simp only [collectAux, hr]
    exact ih (updateTF g s d n tf) (fun m hm => h m (List.mem_cons_of_mem n hm))

theorem collectAux_append :
    ∀ (xs ys : List (List Char)) (tf : TFiles),
    collectAux tf (xs ++ ys) =
      match collectAux tf xs with
      | .ok tf2 => collectAux tf2 ys
      | .error e => .error e := by
  intro xs
  induction xs with
  | nil => intro ys tf; simp [collectAux]
  | cons n rest ih =>
    intro ys tf
    cases hc : classify n with
    | error e => simp [collectAux, hc]
    | ok r =>
      obtain ⟨d, g, s⟩ := r
      simp only [List.cons_append, collectAux, hc]
      exact ih ys (updateTF g s d n tf)

theorem collectAux_preserves_input (g : Nat) (s : List Char) (n2 : List Char) :
    ∀ (names : List (List Char)) (tf tf2 : TFiles) (bk : Bucket),
    (∀ y ∈ names, classify y ≠ .ok (true, g, s)) →
    findBucket tf g s = some bk → bk.input? = some n2 →
    collectAux tf names = .ok tf2 →
    ∃ bk2, findBucket tf2 g s = some bk2 ∧ bk2.input? = some n2 := by
  intro names
  induction names with
  | nil =>
    intro tf tf2 bk _ hfb hin h
    simp only [collectAux] at h
    injection h with h
    subst h
    exact ⟨bk, hfb, hin⟩
  | cons y rest ih =>
    intro tf tf2 bk hno hfb hin h
    cases hc : classify y with
    | error e => simp [collectAux, hc] at h
    | ok r =>
      obtain ⟨d, g2, s2⟩ := r
      simp only [collectAux, hc] at h
      by_cases hsame : g2 = g ∧ s2 = s
      · obtain ⟨hg, hs⟩ := hsame
        subst hg
        subst hs
        have hd : d = false := by
          cases d
          · rfl
          · exact absurd hc (hno y (List.mem_cons_self y rest))
        subst hd
        have hnew := findBucket_updateTF_same g2 s2 false y tf
        rw [hfb] at hnew
        simp only [Option.getD_some] at hnew
        refine ih (updateTF g2 s2 false y tf) tf2 (setDir false y bk)
          (fun m hm => hno m (List.mem_cons_of_mem y hm)) hnew ?_ h
        simp [setDir, hin]
      · have hother : g ≠ g2 ∨ s ≠ s2 := by
          rcases not_and_or.mp hsame with hg | hs
          · exact Or.inl (Ne.symm hg)
          · exact Or.inr (Ne.symm hs)
        have hpres := findBucket_updateTF_other g2 g s2 s d y hother tf
        rw [hfb] at hpres
        exact ih (updateTF g2 s2 d y tf) tf2 bk
          (fun m hm => hno m (List.mem_cons_of_mem y hm)) hpres hin h

/-- C9: duplicated classifications do not raise any error — the
collection phase succeeds whenever every member name classifies — and
when a member `n2` classifying as the input of bucket `(g, s)` is the
last such member in the archive order, the bucket's recorded input file
is exactly `n2`: members earlier in the name list that classified into
the same slot have been silently overwritten, and only the later one is
used. -/
theorem lio_C9 :
    (∀ names : List (List Char), (∀ n ∈ names, ∃ r, classify n = .ok r) →
      ∃ tf, collectTests names = .ok tf) ∧
    (∀ (xs : List (List Char)) (n2 : List Char) (ys : List (List Char))
        (g : Nat) (s : List Char) (tf : TFiles),
      classify n2 = .ok (true, g, s) →
      (∀ y ∈ ys, classify y ≠ .ok (true, g, s)) →
      collectTests (xs ++ n2 :: ys) = .ok tf →
      (findBucket tf g s).map Bucket.input? = some (some n2)) := by
  constructor
  · intro names h
    exact collectAux_ok_of_classified names [] h
  · intro xs n2 ys g s tf hc hno h
    rw [collectTests, collectAux_append xs (n2 :: ys) []] at h
    cases h0 : collectAux [] xs with
    | error e =>
      simp only [h0] at h
      exact Except.noConfusion h
    | ok tf0 =>
      simp only [h0, collectAux, hc] at h
      have hnew := findBucket_updateTF_same g s true n2 tf0
      obtain ⟨bk2, hb2, hin2⟩ := collectAux_preserves_input g s n2 ys
        (updateTF g s true n2 tf0) tf
        (setDir true n2 ((findBucket tf0 g s).getD (Bucket.mk none none)))
        hno hnew (by simp [setDir]) h
      rw [hb2]
      simp [hin2]

/-- C9 witness: in the archive `a.i1`, `b.i1`, `t.o1` the two inputs of
bucket (1, "") collide and the bucket keeps `b.i1`, the later one. -/
theorem lio_C9_witness :
    (findBucket [(1, [([], Bucket.mk (some (chars "b.i1")) (some (chars "t.o1")))])] 1 []).map
      Bucket.input? = some (some (chars "b.i1")) :=
  lio_C9.2 [chars "a.i1"] (chars "b.i1") [chars "t.o1"] 1 []
    [(1, [([], Bucket.mk (some (chars "b.i1")) (some (chars "t.o1")))])]
    (by decide) (by decide) (by decide)

/-! ### Extraction phase: codenames, counts, and the out-of-range group -/

theorem bump_length :
    ∀ (l : List Nat) (i : Nat) (l2 : List Nat), bump l i = .ok l2 → l2.length = l.length := by
  intro l
  induction l with
  | nil => intro i l2 h; simp [bump] at h
  | cons x rest ih =>
    intro i l2 h
    cases i with
    | zero =>
      simp only [bump] at h
      injection h with h
      subst h
      simp
    | succ i2 =>
      cases hb : bump rest i2 with
      | error e => simp [bump, hb] at h
      | ok r2 =>
        simp only [bump, hb] at h
        injection h with h
        subst h
        simp [ih i2 r2 hb]

theorem bump_ok_of_lt :
    ∀ (l : List Nat) (i : Nat), i < l.length → ∃ l2, bump l i = .ok l2 := by
  intro l
  induction l with
  | nil => intro i h; simp at h
  | cons x rest ih =>
    intro i h
    cases i with
    | zero => exact ⟨(x + 1) :: rest, rfl⟩
    | succ i2 =>
      obtain ⟨l2, hl2⟩ := ih i2 (by simpa using h)
      exact ⟨x :: l2, by simp [bump, hl2]⟩

theorem bump_error_of_ge :
    ∀ (l : List Nat) (i : Nat), l.length ≤ i → bump l i = .error .IndexError := by
  intro l
  induction l with
  | nil => intro i _; rfl
  | cons x rest ih =>
    intro i h
    cases i with
    | zero => simp at h
    | succ i2 => simp only [bump, ih i2 (by simpa using h)]

theorem buildSub_extends (w : Nat) (pg : List Nat) (g : Nat) (subs : SubMap) :
    ∀ (slist : List (List Char)) (st st2 : List TCEntry × List Nat),
    buildSub w pg g subs slist st = .ok st2 → ∃ ext, st2.1 = st.1 ++ ext := by
  intro slist
  induction slist with
  | nil =>
    intro st st2 h
    simp only [buildSub] at h
    injection h with h
    subst h
    exact ⟨[], by simp⟩
  | cons s rest ih =>
    intro st st2 h
    obtain ⟨tcs, tpg⟩ := st
    cases hb : bump tpg g with
    | error e => simp [buildSub, hb] at h
    | ok tpg2 =>
      cases hf : findSub subs s with
      | error e => simp [buildSub, hb, hf] at h
      | ok bk =>
        cases hin : bk.input? with
        | none => simp [buildSub, hb, hf, hin] at h
        | some inN =>
          cases hout : bk.output? with
          | none => simp [buildSub, hb, hf, hin, hout] at h
          | some outN =>
            simp only [buildSub, hb, hf, hin, hout] at h
            obtain ⟨ext, hext⟩ := ih _ _ h
            exact ⟨(zeroPad w g ++ s, decide (g ∈ pg), inN, outN) :: ext, by rw [hext]; simp⟩

theorem buildSub_mem (w : Nat) (pg : List Nat) (g : Nat) (subs : SubMap)
    (s : List Char) (bk : Bucket) (inN outN : List Char)
    (hlk : lookupA subs s = some bk) (hin : bk.input? = some inN)
    (hout : bk.output? = some outN) :
    ∀ (slist : List (List Char)) (st st2 : List TCEntry × List Nat),
    buildSub w pg g subs slist st = .ok st2 → s ∈ slist →
    (zeroPad w g ++ s, decide (g ∈ pg), inN, outN) ∈ st2.1 := by
  intro slist
  induction slist with
  | nil => intro st st2 _ hmem; simp at hmem
  | cons s1 rest ih =>
    intro st st2 h hmem
    obtain ⟨tcs, tpg⟩ := st
    cases hb : bump tpg g with
    | error e => simp [buildSub, hb] at h
    | ok tpg2 =>
      cases hf : findSub subs s1 with
      | error e => simp [buildSub, hb, hf] at h
      | ok bk1 =>
        cases hin1 : bk1.input? with
        | none => simp [buildSub, hb, hf, hin1] at h
        | some inN1 =>
          cases hout1 : bk1.output? with
          | none => simp [buildSub, hb, hf, hin1, hout1] at h
          | some outN1 =>
            simp only [buildSub, hb, hf, hin1, hout1] at h
            rcases List.mem_cons.mp hmem with rfl | hmem2
            · have hbk : bk1 = bk := by
                simp only [findSub, hlk] at hf
                injection hf with hf
                exact hf.symm
              subst hbk
              rw [hin] at hin1
              rw [hout] at hout1
              injection hin1 with hin1
              injection hout1 with hout1
              subst hin1
              subst hout1
              obtain ⟨ext, hext⟩ := buildSub_extends w pg g subs rest _ _ h
              rw [hext]
              simp
            · exact ih _ _ h hmem2

theorem buildGroups_extends (w : Nat) (pg : List Nat) (tf : TFiles) :
    ∀ (glist : List Nat) (st st2 : List TCEntry × List Nat),
    buildGroups w pg tf glist st = .ok st2 → ∃ ext, st2.1 = st.1 ++ ext := by
  intro glist
  induction glist with
  | nil =>
    intro st st2 h
    simp only [buildGroups] at h
    injection h with h
    subst h
    exact ⟨[], by simp⟩
  | cons g rest ih =>
    intro st st2 h
    cases hf : findGroup tf g with
    | error e => simp [buildGroups, hf] at h
    | ok subs =>
      cases hbs : buildSub w pg g subs (sortStrs (subs.map Prod.fst)) st with
      | error e => simp [buildGroups, hf, hbs] at h
      | ok st1 =>
        simp only [buildGroups, hf, hbs] at h
        obtain ⟨ext1, hext1⟩ := buildSub_extends w pg g subs _ _ _ hbs
        obtain ⟨ext2, hext2⟩ := ih _ _ h
        exact ⟨ext1 ++ ext2, by rw [hext2, hext1]; simp⟩

theorem buildGroups_mem (w : Nat) (pg : List Nat) (tf : TFiles)
    (g : Nat) (subs : SubMap) (s : List Char) (bk : Bucket) (inN outN : List Char)
    (hg : lookupA tf g = some subs)
    (hs : s ∈ subs.map Prod.fst)
    (hlk : lookupA subs s = some bk)
    (hin : bk.input? = some inN) (hout : bk.output? = some outN) :
    ∀ (glist : List Nat) (st st2 : List TCEntry × List Nat),
    buildGroups w pg tf glist st = .ok st2 → g ∈ glist →
    (zeroPad w g ++ s, decide (g ∈ pg), inN, outN) ∈ st2.1 := by
  intro glist
  induction glist with
  | nil => intro st st2 _ hmem; simp at hmem
  | cons g1 rest ih =>
    intro st st2 h hmem
    cases hf : findGroup tf g1 with
    | error e => simp [buildGroups, hf] at h
    | ok subs1 =>
      cases hbs : buildSub w pg g1 subs1 (sortStrs (subs1.map Prod.fst)) st with
      | error e => simp [buildGroups, hf, hbs] at h
      | ok st1 =>
        simp only [buildGroups, hf, hbs] at h
        rcases List.mem_cons.mp hmem with rfl | hmem2
        · have hsubs : subs1 = subs := by
            simp only [findGroup, hg] at hf
            injection hf with hf
            exact hf.symm
          rw [hsubs] at hbs
          have hsr : s ∈ sortStrs (subs.map Prod.fst) :=
            ((List.perm_insertionSort _ _).mem_iff).mpr hs
          have hmem1 := buildSub_mem w pg g subs s bk inN outN hlk hin hout _ _ _ hbs hsr
          obtain ⟨ext, hext⟩ := buildGroups_extends w pg tf rest _ _ h
          rw [hext]
          exact List.mem_append_left _ hmem1
        · exact ih _ _ h hmem2

/-- C5: whenever the extraction phase succeeds, every complete bucket
`(g, s)` of the collected test files yields a testcase whose codename is
the group index zero-padded to the decimal width of the largest group
index present in the archive, concatenated with the sub-index label. -/
theorem lio_C5 (pg tpg0 : List Nat) (tf : TFiles) (tcs : List TCEntry) (tpg : List Nat)
    (g : Nat) (subs : SubMap) (s : List Char) (bk : Bucket) (inN outN : List Char) (mx : Nat)
    (hnk : (tf.map Prod.fst).Nodup)
    (hg : (g, subs) ∈ tf)
    (hns : (subs.map Prod.fst).Nodup)
    (hs : (s, bk) ∈ subs)
    (hin : bk.input? = some inN) (hout : bk.output? = some outN)
    (hmx : maxKeys tf = .ok mx)
    (hok : buildTestcases pg tpg0 tf = .ok (tcs, tpg)) :
    (zeroPad ((Nat.toDigits 10 mx).length) g ++ s, decide (g ∈ pg), inN, outN) ∈ tcs := by
  simp only [buildTestcases, hmx] at hok
  have hlkg : lookupA tf g = some subs := lookupA_eq_some_of_mem hnk hg
  have hlks : lookupA subs s = some bk := lookupA_eq_some_of_mem hns hs
  have hsk : s ∈ subs.map Prod.fst := List.mem_map.mpr ⟨(s, bk), hs, rfl⟩
  have hgk : g ∈ sortNats (tf.map Prod.fst) :=
    ((List.perm_insertionSort _ _).mem_iff).mpr (List.mem_map.mpr ⟨(g, subs), hg, rfl⟩)
  exact buildGroups_mem ((Nat.toDigits 10 mx).length) pg tf g subs s bk inN outN
    hlkg hsk hlks hin hout (sortNats (tf.map Prod.fst)) ([], tpg0) (tcs, tpg) hok hgk

/-- C5 witness: with groups 3 (sub-index `b`) and 12 in the archive, the
width is 2 and the bucket (3, "b") yields codename `03b`. -/
theorem lio_C5_witness :
    (zeroPad ((Nat.toDigits 10 12).length) 3 ++ chars "b", decide (3 ∈ ([0, 1] : List Nat)),
      chars "x.i3b", chars "x.o3b") ∈
      ([(chars "03b", false, chars "x.i3b", chars "x.o3b"),
        (chars "12", false, chars "x.i12", chars "x.o12")] : List TCEntry) :=
  lio_C5 [0, 1] (List.replicate 13 0)
    [(3, [(chars "b", Bucket.mk (some (chars "x.i3b")) (some (chars "x.o3b")))]),
     (12, [([], Bucket.mk (some (chars "x.i12")) (some (chars "x.o12")))])]
    [(chars "03b", false, chars "x.i3b", chars "x.o3b"),
     (chars "12", false, chars "x.i12", chars "x.o12")]
    [0, 0, 0, 1, 0, 0, 0, 0, 0, 0, 0, 0, 1]
    3 [(chars "b", Bucket.mk (some (chars "x.i3b")) (some (chars "x.o3b")))]
    (chars "b") (Bucket.mk (some (chars "x.i3b")) (some (chars "x.o3b")))
    (chars "x.i3b") (chars "x.o3b") 12
    (by decide) (by decide) (by decide) (by decide) (by decide) (by decide)
    (by decide) (by decide)

theorem buildSub_ok_of_complete (w : Nat) (pg : List Nat) (g : Nat) (subs : SubMap)
    (hcomp : ∀ e ∈ subs, (Prod.snd e).input?.isSome ∧ (Prod.snd e).output?.isSome) :
    ∀ (slist : List (List Char)) (st : List TCEntry × List Nat),
    (∀ s ∈ slist, s ∈ subs.map Prod.fst) → g < st.2.length →
    ∃ st2, buildSub w pg g subs slist st = .ok st2 ∧ st2.2.length = st.2.length := by
  intro slist
  induction slist with
  | nil => intro st _ _; exact ⟨st, rfl, rfl⟩
  | cons s rest ih =>
    intro st hsub hlt
    obtain ⟨tcs, tpg⟩ := st
    obtain ⟨tpg2, hb⟩ := bump_ok_of_lt tpg g hlt
    have hlen2 : tpg2.length = tpg.length := bump_length tpg g tpg2 hb
    obtain ⟨bk, hbk⟩ := lookupA_isSome_of_mem_keys (hsub s (List.mem_cons_self s rest))
    have hc := hcomp (s, bk) (mem_of_lookupA_eq_some hbk)
    obtain ⟨inN, hin⟩ := Option.isSome_iff_exists.mp hc.1
    obtain ⟨outN, hout⟩ := Option.isSome_iff_exists.mp hc.2
    obtain ⟨st2, hok, hlen⟩ := ih
      (tcs ++ [(zeroPad w g ++ s, decide (g ∈ pg), inN, outN)], tpg2)
      (fun s2 hs2 => hsub s2 (List.mem_cons_of_mem s hs2))
      (by show g < tpg2.length; rw [hlen2]; exact hlt)
    refine ⟨st2, ?_, ?_⟩
    · simp only [buildSub, hb, findSub, hbk]
      rw [hin, hout]
      exact hok
    · rw [hlen]
      exact hlen2

theorem buildGroups_extra (w : Nat) (pg : List Nat) (tf : TFiles) (N : Nat)
    (hcomp : ∀ e ∈ tf, Prod.fst e < N →
      ∀ e2 ∈ Prod.snd e, (Prod.snd e2).input?.isSome ∧ (Prod.snd e2).output?.isSome) :
    ∀ (glist : List Nat) (st : List TCEntry × List Nat),
    (∀ g ∈ glist, g ∈ tf.map Prod.fst) → st.2.length = N →
    (∃ g0 ∈ glist, N ≤ g0 ∧ ∃ subs0, lookupA tf g0 = some subs0 ∧ subs0 ≠ []) →
    buildGroups w pg tf glist st = .error .IndexError := by
  intro glist
  induction glist with
  | nil =>
    intro st _ _ hex
    obtain ⟨g0, hg0, _⟩ := hex
    exact absurd hg0 (List.not_mem_nil g0)
  | cons g rest ih =>
    intro st hsub hlen hex
    obtain ⟨subs, hlk⟩ := lookupA_isSome_of_mem_keys (hsub g (List.mem_cons_self g rest))
    have hfg : findGroup tf g = .ok subs := by simp [findGroup, hlk]
    by_cases hN : N ≤ g
    · cases hsubs : subs with
      | nil =>
        have hbs : buildSub w pg g subs (sortStrs (subs.map Prod.fst)) st = .ok st := by
          rw [hsubs]
          rfl
        simp only [buildGroups, hfg, hbs]
        apply ih st (fun g2 hg2 => hsub g2 (List.mem_cons_of_mem g hg2)) hlen
        obtain ⟨g0, hg0mem, hg0N, subs0, hlk0, hne0⟩ := hex
        rcases List.mem_cons.mp hg0mem with rfl | hg0rest
        · rw [hlk] at hlk0
          injection hlk0 with hlk0
          exact absurd (hlk0.symm.trans hsubs) hne0
        · exact ⟨g0, hg0rest, hg0N, subs0, hlk0, hne0⟩
      | cons e0 es =>
        have hlen1 : (sortStrs (subs.map Prod.fst)).length = (subs.map Prod.fst).length :=
          (List.perm_insertionSort _ _).length_eq
        cases hsort : sortStrs (subs.map Prod.fst) with
        | nil =>
          exfalso
          rw [hsort, hsubs] at hlen1
          simp at hlen1
        | cons s1 ss =>
          obtain ⟨tcs, tpg⟩ := st
          have hge : tpg.length ≤ g := by
            have hh : tpg.length = N := hlen
            omega
          have hb : bump tpg g = .error .IndexError := bump_error_of_ge tpg g hge
          simp only [buildGroups, hfg, hsort, buildSub, hb]
    · push_neg at hN
      have hc : ∀ e2 ∈ subs, (Prod.snd e2).input?.isSome ∧ (Prod.snd e2).output?.isSome :=
        hcomp (g, subs) (mem_of_lookupA_eq_some hlk) hN
      obtain ⟨st1, hok, hlen1⟩ := buildSub_ok_of_complete w pg g subs hc
        (sortStrs (subs.map Prod.fst)) st
        (fun s2 hs2 => ((List.perm_insertionSort _ _).mem_iff).mp hs2)
        (by rw [hlen]; exact hN)
      simp only [buildGroups, hfg, hok]
      apply ih st1 (fun g2 hg2 => hsub g2 (List.mem_cons_of_mem g hg2))
        (by rw [hlen1]; exact hlen)
      obtain ⟨g0, hg0mem, hg0N, subs0, hlk0, hne0⟩ := hex
      rcases List.mem_cons.mp hg0mem with rfl | hg0rest
      · exact absurd hg0N (Nat.not_le.mpr hN)
      · exact ⟨g0, hg0rest, hg0N, subs0, hlk0, hne0⟩

theorem maxKeys_ok_of_ne_nil (tf : TFiles) (h : tf ≠ []) : ∃ mx, maxKeys tf = .ok mx := by
  cases tf with
  | nil => exact absurd rfl h
  | cons e rest => exact ⟨((rest.map Prod.fst).foldl max e.1), rfl⟩

/-- C8: when the point file parses to N groups and the collected archive
contains a nonempty bucket for some group index `g0 ≥ N` (an extra group
not present in the point file), while every bucket of the groups below N
is complete, the import does not raise a `LioLoaderException`: it fails
with an uncaught `IndexError` raised when incrementing the per-group
test count for the extra group. -/
theorem lio_C8 (pl names : List (List Char)) (pg : List Nat)
    (ppg : List (Nat × Nat)) (stp : List (Nat × List Char)) (tf : TFiles)
    (g0 : Nat) (subs0 : SubMap)
    (hpp : parse_point_file pl = .ok ppg)
    (hstp : score_type_parameters ppg = .ok stp)
    (hcol : collectTests names = .ok tf)
    (hnk : (tf.map Prod.fst).Nodup)
    (hmem : (g0, subs0) ∈ tf)
    (hne : subs0 ≠ [])
    (hge : ppg.length ≤ g0)
    (hcomp : ∀ e ∈ tf, Prod.fst e < ppg.length →
      ∀ e2 ∈ Prod.snd e, (Prod.snd e2).input?.isSome ∧ (Prod.snd e2).output?.isSome) :
    get_task pl names pg = .error .IndexError ∧
    ∀ msg, get_task pl names pg ≠ .error (.LioError msg) := by
  have htf : tf ≠ [] := by
    intro hnil
    rw [hnil] at hmem
    simp at hmem
  obtain ⟨mx, hmx⟩ := maxKeys_ok_of_ne_nil tf htf
  have hbg := buildGroups_extra ((Nat.toDigits 10 mx).length) pg tf ppg.length hcomp
    (sortNats (tf.map Prod.fst)) ([], List.replicate ppg.length 0)
    (fun g2 hg2 => ((List.perm_insertionSort _ _).mem_iff).mp hg2)
    (by simp)
    ⟨g0, ((List.perm_insertionSort _ _).mem_iff).mpr (List.mem_map.mpr ⟨(g0, subs0), hmem, rfl⟩),
      hge, subs0, lookupA_eq_some_of_mem hnk hmem, hne⟩
  have hbt : buildTestcases pg (List.replicate ppg.length 0) tf = .error .IndexError := by
    simp only [buildTestcases, hmx, hbg]
  constructor
  · simp only [get_task, hpp, hstp, hcol, hbt]
  · intro msg
    simp only [get_task, hpp, hstp, hcol, hbt]
    intro hcontra
    injection hcontra with hcontra
    exact PyError.noConfusion hcontra

/-- C8 witness: one point-file group (`0-0 100`) but archive tests for
groups 0 and 1 — the import dies with `IndexError`, not a
`LioLoaderException`. -/
theorem lio_C8_witness :
    get_task [chars "0-0 100"] [chars "a.i0", chars "a.o0", chars "a.i1", chars "a.o1"] [0, 1] =
      .error .IndexError ∧
    ∀ msg, get_task [chars "0-0 100"]
      [chars "a.i0", chars "a.o0", chars "a.i1", chars "a.o1"] [0, 1] ≠
      .error (.LioError msg) :=
  lio_C8 [chars "0-0 100"] [chars "a.i0", chars "a.o0", chars "a.i1", chars "a.o1"] [0, 1]
    [(0, 100)] [(100, chars "000")]
    [(0, [([], Bucket.mk (some (chars "a.i0")) (some (chars "a.o0")))]),
     (1, [([], Bucket.mk (some (chars "a.i1")) (some (chars "a.o1")))])]
    1 [([], Bucket.mk (some (chars "a.i1")) (some (chars "a.o1")))]
    (by decide) (by decide) (by decide) (by decide) (by decide) (by decide)
    (by decide) (by decide)
